import Mathlib

/-!
Shallow embedding of `networkx/algorithms/neighbor_degree.py`.

The module computes, per node, the average degree of its neighbors
(`average_neighbor_degree` and its in/out-degree variants), and, per degree
class `k`, the average nearest-neighbor degree (`average_degree_connectivity`
and variants).  Python floats are modelled as exact rationals `ℚ`; Python
dicts are modelled as association lists in insertion order.

The graph object itself is an external collaborator (not part of the analysed
module); it is modelled from the spec's interface contract: a directedness
flag, a node list, and an edge list with optional edge weights, from which
adjacency and (weighted / unweighted, plain / in / out) degree are derived.
-/

namespace NeighborDegree

/-- Modelled from the spec: the edge-attribute weight lookup
`attrs.get('weight', 1)` — an optional weight attribute defaulting to 1
when absent. -/
def wt (o : Option ℚ) : ℚ := o.getD 1

/-- Modelled from the spec: the external graph collaborator.  A graph is
polymorphic over directed/undirected (`directed` flag), exposes its node set
(`nodes`, in graph order) and stores edges as (source, target, optional
weight) triples.  For an undirected graph an edge is stored once and is
incident to both endpoints. -/
structure Graph where
  directed : Bool
  nodes : List ℕ
  edges : List (ℕ × ℕ × Option ℚ)

/-- The successor adjacency of `n`: targets (with edge attributes) of edges
whose source is `n`. -/
def successorsW (G : Graph) (n : ℕ) : List (ℕ × Option ℚ) :=
  (G.edges.filter fun e => e.1 = n).map fun e => (e.2.1, e.2.2)

/-- Modelled from the spec: `G[n]`, the neighbor mapping of node `n`.
For a directed graph this is the successor mapping; for an undirected graph
it contains every neighbor of `n` (a self-loop appearing once). -/
def Graph.adj (G : Graph) (n : ℕ) : List (ℕ × Option ℚ) :=
  if G.directed then successorsW G n
  else successorsW G n ++
    ((G.edges.filter fun e => e.2.1 = n ∧ e.1 ≠ n).map fun e => (e.1, e.2.2))

/-- The three degree accessors the callers choose among: `G.degree`,
`G.in_degree`, `G.out_degree`. -/
inductive Dir where
  | plain
  | inD
  | outD
deriving DecidableEq

/-- Modelled from the spec: the unweighted degree accessor — the number of
incident edges (for `plain`, each edge endpoint equal to `n` counts, so a
self-loop counts twice; for a directed graph `plain` is in-degree plus
out-degree), restricted to inbound edges for `inD` and outbound edges for
`outD`. -/
def degNat (G : Graph) (d : Dir) (n : ℕ) : ℕ :=
  match d with
  | .plain =>
      (G.edges.map fun e =>
        (if e.1 = n then 1 else 0) + (if e.2.1 = n then 1 else 0)).sum
  | .inD => (G.edges.map fun e => if e.2.1 = n then 1 else 0).sum
  | .outD => (G.edges.map fun e => if e.1 = n then 1 else 0).sum

/-- Modelled from the spec: the weighted degree accessor — the sum of
incident edge weights (default weight 1 when unset), with the same
direction handling as `degNat`. -/
def degW (G : Graph) (d : Dir) (n : ℕ) : ℚ :=
  match d with
  | .plain =>
      (G.edges.map fun e =>
        wt e.2.2 * ((if e.1 = n then 1 else 0) + (if e.2.1 = n then 1 else 0))).sum
  | .inD => (G.edges.map fun e => wt e.2.2 * (if e.2.1 = n then 1 else 0)).sum
  | .outD => (G.edges.map fun e => wt e.2.2 * (if e.1 = n then 1 else 0)).sum

/-- `degree_method(n, weighted=weighted)`: the chosen accessor honoring the
weighted flag. -/
def degQ (G : Graph) (d : Dir) (weighted : Bool) (n : ℕ) : ℚ :=
  if weighted then degW G d n else (degNat G d n : ℚ)

/-- Modelled from the spec: `G.nbunch_iter(nodes)` — yields all graph nodes
when the selection is absent, otherwise the members of the selection that
are nodes of the graph, in selection order. -/
def nbunchIter (G : Graph) : Option (List ℕ) → List ℕ
  | none => G.nodes
  | some l => l.filter fun n => n ∈ G.nodes

/-- Removes duplicates keeping the first occurrence of each element, the
key order a Python dict built by repeated insertion has. -/
def dedupFirstAux (seen : List ℕ) : List ℕ → List ℕ
  | [] => []
  | a :: l =>
      if a ∈ seen then dedupFirstAux seen l
      else a :: dedupFirstAux (a :: seen) l

/-- Duplicate removal keeping first occurrences. -/
def dedupFirst (l : List ℕ) : List ℕ := dedupFirstAux [] l

/-- The neighbor-degree sum of one node (`float(sum(nbrv))` in
`_average_nbr_deg` / `_avg_deg_conn`): `nbrdeg = degree_method(G[n])` gives
each neighbor's unweighted degree; with `weighted` each degree is scaled by
`G[n][nbr].get('weight', 1)`. -/
def nbrContrib (G : Graph) (d : Dir) (weighted : Bool) (n : ℕ) : ℚ :=
  if weighted then
    ((G.adj n).map fun p => wt p.2 * (degNat G d p.1 : ℚ)).sum
  else
    ((G.adj n).map fun p => (degNat G d p.1 : ℚ)).sum

/-- `_average_nbr_deg(G, degree_method, nodes, weighted)`: for each node `n`
of the selection, `avg_nbr_deg[n] = float(sum(nbrv))`, divided by
`norm = degree_method(n, weighted=weighted)` when `norm > 0`. -/
def averageNbrDeg (G : Graph) (d : Dir) (nodes : Option (List ℕ))
    (weighted : Bool) : List (ℕ × ℚ) :=
  (dedupFirst (nbunchIter G nodes)).map fun n =>
    let s := nbrContrib G d weighted n
    let norm := degQ G d weighted n
    (n, if norm > 0 then s / norm else s)

/-- `average_neighbor_degree(G, nodes, weighted)`. -/
def average_neighbor_degree (G : Graph) (nodes : Option (List ℕ))
    (weighted : Bool) : List (ℕ × ℚ) :=
  averageNbrDeg G .plain nodes weighted

/-- The error raised by the in/out variants on undirected graphs
(`nx.NetworkXError`, the spec's `UnsupportedOperation`). -/
def undirectedErr : String := "Not defined for undirected graphs."

/-- `average_neighbor_in_degree(G, nodes, weighted)`: raises on undirected
graphs, before any accumulation (the error case produces no mapping at
all). -/
def average_neighbor_in_degree (G : Graph) (nodes : Option (List ℕ))
    (weighted : Bool) : Except String (List (ℕ × ℚ)) :=
  if G.directed then .ok (averageNbrDeg G .inD nodes weighted)
  else .error undirectedErr

/-- `average_neighbor_out_degree(G, nodes, weighted)`. -/
def average_neighbor_out_degree (G : Graph) (nodes : Option (List ℕ))
    (weighted : Bool) : Except String (List (ℕ × ℚ)) :=
  if G.directed then .ok (averageNbrDeg G .outD nodes weighted)
  else .error undirectedErr

/-- A Python `defaultdict(float)`: insertion-ordered key list plus a total
value function that is `0.0` off the keys. -/
structure DDict where
  keys : List ℕ
  val : ℕ → ℚ

/-- The empty accumulator `defaultdict(float)`. -/
def DDict.empty : DDict := ⟨[], fun _ => 0⟩

/-- `m[k] += v` on a `defaultdict(float)`: first touch appends `k` to the
key order. -/
def DDict.add (m : DDict) (k : ℕ) (v : ℚ) : DDict where
  keys := if k ∈ m.keys then m.keys else m.keys ++ [k]
  val := fun j => if j = k then m.val k + v else m.val j

/-- The accumulation loop of `_avg_deg_conn`: for each selected node `n`
with unweighted accessor-degree `k`, add the neighbor-degree sum into
`dsum[k]` and the normalizing mass (`degree_method(n, weighted=True)` when
weighted, else `k` itself) into `dnorm[k]`. -/
def connLoop (G : Graph) (d : Dir) (weighted : Bool) :
    List ℕ → DDict × DDict → DDict × DDict
  | [], st => st
  | n :: ns, (ds, dn) =>
      let k := degNat G d n
      let normC := if weighted then degW G d n else (k : ℚ)
      connLoop G d weighted ns (ds.add k (nbrContrib G d weighted n), dn.add k normC)

/-- The error Python float division raises on a zero divisor
(`ZeroDivisionError`). -/
def zeroDivErr : String := "float division by zero"

/-- The result-building loop of `_avg_deg_conn` over `dsum.items()`:
`dc[k] = avg; if avg > 0: dc[k] /= dnorm[k]`.  When `avg > 0` and
`dnorm[k]` is `0.0` the division raises `ZeroDivisionError`, aborting the
call — the partially built `dc` is discarded and no mapping is returned. -/
def normLoop (ds dn : DDict) : List ℕ → Except String (List (ℕ × ℚ))
  | [] => .ok []
  | k :: ks =>
      if ds.val k > 0 then
        if dn.val k = 0 then .error zeroDivErr
        else (normLoop ds dn ks).map fun rest => (k, ds.val k / dn.val k) :: rest
      else (normLoop ds dn ks).map fun rest => (k, ds.val k) :: rest

/-- `_avg_deg_conn(G, degree_method, nodes, weighted)`: run the
accumulation loop over the selection (the dict `degree_method(node_iter)`
deduplicates it), then `dc[k] = dsum[k]`, divided by `dnorm[k]` when
`dsum[k] > 0` — a division whose divisor is zero raises, so the call
either returns the whole mapping or an error. -/
def avgDegConn (G : Graph) (d : Dir) (nodes : Option (List ℕ))
    (weighted : Bool) : Except String (List (ℕ × ℚ)) :=
  let sel := dedupFirst (nbunchIter G nodes)
  let st := connLoop G d weighted sel (DDict.empty, DDict.empty)
  normLoop st.1 st.2 st.1.keys

/-- `average_degree_connectivity(G, nodes, weighted)`. -/
def average_degree_connectivity (G : Graph) (nodes : Option (List ℕ))
    (weighted : Bool) : Except String (List (ℕ × ℚ)) :=
  avgDegConn G .plain nodes weighted

/-- `average_in_degree_connectivity(G, nodes, weighted)`. -/
def average_in_degree_connectivity (G : Graph) (nodes : Option (List ℕ))
    (weighted : Bool) : Except String (List (ℕ × ℚ)) :=
  if G.directed then avgDegConn G .inD nodes weighted
  else .error undirectedErr

/-- `average_out_degree_connectivity(G, nodes, weighted)`. -/
def average_out_degree_connectivity (G : Graph) (nodes : Option (List ℕ))
    (weighted : Bool) : Except String (List (ℕ × ℚ)) :=
  if G.directed then avgDegConn G .outD nodes weighted
  else .error undirectedErr

/-- `k_nearest_neighbors = average_degree_connectivity`. -/
def k_nearest_neighbors (G : Graph) (nodes : Option (List ℕ))
    (weighted : Bool) : Except String (List (ℕ × ℚ)) :=
  average_degree_connectivity G nodes weighted

/-- `neighbor_connectivity = average_degree_connectivity`. -/
def neighbor_connectivity (G : Graph) (nodes : Option (List ℕ))
    (weighted : Bool) : Except String (List (ℕ × ℚ)) :=
  average_degree_connectivity G nodes weighted

/-- Two calls of the same entry point in sequence, each call a fresh
evaluation with no state threaded between them. -/
def runTwice {α : Type} (f : Unit → α) : α × α := (f (), f ())

/-- The undirected path graph `nx.path_graph(4)`: 0-1-2-3, no weights. -/
def upath : Graph := ⟨false, [0, 1, 2, 3], [(0, 1, none), (1, 2, none), (2, 3, none)]⟩

/-- The same path graph with `G.edge[0][1]['weight'] = 5` and
`G.edge[2][3]['weight'] = 3`. -/
def wpath : Graph :=
  ⟨false, [0, 1, 2, 3], [(0, 1, some 5), (1, 2, none), (2, 3, some 3)]⟩

/-- The directed path graph 0→1→2→3 of the docstring example. -/
def dpath : Graph := ⟨true, [0, 1, 2, 3], [(0, 1, none), (1, 2, none), (2, 3, none)]⟩

/-- An undirected single-edge graph whose only edge has weight -1. -/
def negG : Graph := ⟨false, [0, 1], [(0, 1, some (-1))]⟩

/-- A graph with one isolated node. -/
def isoG : Graph := ⟨false, [0], []⟩

/-- A node with no incident edges at all. -/
def IsIsolated (G : Graph) (n : ℕ) : Prop :=
  ∀ e ∈ G.edges, e.1 ≠ n ∧ e.2.1 ≠ n

/-- The neighbor-degree sum written over an explicit adjacency list and an
explicit unweighted degree accessor — used to state that every variant
traverses the same adjacency and differs only in the accessor. -/
def nbrSumOver (adjList : List (ℕ × Option ℚ)) (deg : ℕ → ℕ)
    (weighted : Bool) : ℚ :=
  if weighted then (adjList.map fun p => wt p.2 * (deg p.1 : ℚ)).sum
  else (adjList.map fun p => (deg p.1 : ℚ)).sum

/-- The total mass held by a defaultdict accumulator: the sum of its values
over its key list. -/
def DDict.total (m : DDict) : ℚ := (m.keys.map m.val).sum

/-- Well-formedness every accumulator reachable from `DDict.empty` has:
no duplicate keys, and value `0.0` off the keys. -/
def DDict.Inv (m : DDict) : Prop :=
  m.keys.Nodup ∧ ∀ j, j ∉ m.keys → m.val j = 0

lemma mem_dedupFirstAux (l : List ℕ) : ∀ (seen : List ℕ) (a : ℕ),
    a ∈ dedupFirstAux seen l ↔ a ∈ l ∧ a ∉ seen := by
  induction l with
  | nil => intro seen a; simp [dedupFirstAux]
  | cons b l ih =>
    intro seen a
    by_cases hb : b ∈ seen
    · simp only [dedupFirstAux, if_pos hb, ih, List.mem_cons]
      constructor
      · rintro ⟨h1, h2⟩; exact ⟨Or.inr h1, h2⟩
      · rintro ⟨h1 | h1, h2⟩
        · subst h1; exact absurd hb h2
        · exact ⟨h1, h2⟩
    · simp only [dedupFirstAux, if_neg hb, List.mem_cons, ih]
      constructor
      · rintro (rfl | ⟨h1, h2⟩)
        · exact ⟨Or.inl rfl, hb⟩
        · push_neg at h2
          exact ⟨Or.inr h1, h2.2⟩
      · rintro ⟨rfl | h1, h2⟩
        · exact Or.inl rfl
        · by_cases hab : a = b
          · exact Or.inl hab
          · refine Or.inr ⟨h1, ?_⟩
            push_neg; exact ⟨hab, h2⟩

lemma mem_dedupFirst (l : List ℕ) (a : ℕ) : a ∈ dedupFirst l ↔ a ∈ l := by
  simp [dedupFirst, mem_dedupFirstAux]

lemma DDict.mem_add_keys (m : DDict) (k : ℕ) (v : ℚ) (j : ℕ) :
    j ∈ (m.add k v).keys ↔ j ∈ m.keys ∨ j = k := by
  simp only [DDict.add]
  by_cases h : k ∈ m.keys
  · rw [if_pos h]
    constructor
    · exact Or.inl
    · rintro (h1 | rfl)
      · exact h1
      · exact h
  · rw [if_neg h]; simp

lemma DDict.inv_add (m : DDict) (k : ℕ) (v : ℚ) (hm : m.Inv) :
    (m.add k v).Inv := by
  obtain ⟨hnd, hz⟩ := hm
  constructor
  · simp only [DDict.add]
    by_cases h : k ∈ m.keys
    · rw [if_pos h]; exact hnd
    · rw [if_neg h]
      rw [List.nodup_append]
      refine ⟨hnd, List.nodup_singleton k, ?_⟩
      intro j hj hjk
      rw [List.mem_singleton] at hjk
      subst hjk; exact h hj
  · intro j hj
    rw [DDict.mem_add_keys] at hj
    push_neg at hj
    simp only [DDict.add]
    rw [if_neg hj.2]
    exact hz j hj.1

lemma sum_map_update (ks : List ℕ) (f : ℕ → ℚ) (k : ℕ) (v : ℚ)
    (hnd : ks.Nodup) (hk : k ∈ ks) :
    (ks.map fun j => if j = k then f j + v else f j).sum = (ks.map f).sum + v := by
  induction ks with
  | nil => cases hk
  | cons a ks ih =>
    rw [List.nodup_cons] at hnd
    rcases List.mem_cons.1 hk with rfl | hk'
    · simp only [List.map_cons, List.sum_cons, if_pos rfl]
      have : ks.map (fun j => if j = k then f j + v else f j) = ks.map f := by
        refine List.map_congr_left fun j hj => ?_
        rw [if_neg]; rintro rfl; exact hnd.1 hj
      rw [this]; simp; ring
    · have hak : a ≠ k := by rintro rfl; exact hnd.1 hk'
      simp only [List.map_cons, List.sum_cons, if_neg hak]
      rw [ih hnd.2 hk']; ring

lemma DDict.total_add (m : DDict) (k : ℕ) (v : ℚ) (hm : m.Inv) :
    (m.add k v).total = m.total + v := by
  obtain ⟨hnd, hz⟩ := hm
  simp only [DDict.total, DDict.add]
  by_cases h : k ∈ m.keys
  · rw [if_pos h]
    have h1 : (m.keys.map fun j => if j = k then m.val k + v else m.val j)
        = m.keys.map fun j => if j = k then m.val j + v else m.val j := by
      refine List.map_congr_left fun j _ => ?_
      by_cases hjk : j = k
      · subst hjk; simp
      · simp [hjk]
    rw [h1, sum_map_update m.keys m.val k v hnd h]
  · rw [if_neg h, List.map_append, List.sum_append]
    have h1 : (m.keys.map fun j => if j = k then m.val k + v else m.val j)
        = m.keys.map m.val := by
      refine List.map_congr_left fun j hj => ?_
      rw [if_neg]; rintro rfl; exact h hj
    simp only [List.map_cons, List.map_nil, List.sum_cons, List.sum_nil, if_pos]
    rw [h1, hz k h]; ring

lemma connLoop_cons (G : Graph) (d : Dir) (w : Bool) (n : ℕ) (ns : List ℕ)
    (ds dn : DDict) :
    connLoop G d w (n :: ns) (ds, dn) =
      connLoop G d w ns
        (ds.add (degNat G d n) (nbrContrib G d w n),
         dn.add (degNat G d n) (if w then degW G d n else (degNat G d n : ℚ))) :=
  rfl

lemma connLoop_norm_total (G : Graph) (d : Dir) (w : Bool) :
    ∀ (l : List ℕ) (ds dn : DDict), dn.Inv →
      (connLoop G d w l (ds, dn)).2.total = dn.total + (l.map (degQ G d w)).sum := by
  intro l
  induction l with
  | nil => intro ds dn _; simp [connLoop]
  | cons n ns ih =>
    intro ds dn h
    rw [connLoop_cons, ih _ _ (DDict.inv_add _ _ _ h), DDict.total_add _ _ _ h]
    simp only [List.map_cons, List.sum_cons, degQ]
    ring

lemma connLoop_keys_mem (G : Graph) (d : Dir) (w : Bool) :
    ∀ (l : List ℕ) (ds dn : DDict) (k : ℕ),
      k ∈ (connLoop G d w l (ds, dn)).1.keys ↔
        k ∈ ds.keys ∨ ∃ n ∈ l, degNat G d n = k := by
  intro l
  induction l with
  | nil => intro ds dn k; simp [connLoop]
  | cons n ns ih =>
    intro ds dn k
    rw [connLoop_cons, ih, DDict.mem_add_keys, List.exists_mem_cons_iff]
    constructor
    · rintro ((h | rfl) | h)
      · exact Or.inl h
      · exact Or.inr (Or.inl rfl)
      · exact Or.inr (Or.inr h)
    · rintro (h | h | h)
      · exact Or.inl (Or.inl h)
      · exact Or.inl (Or.inr h.symm)
      · exact Or.inr h

lemma mem_averageNbrDeg (G : Graph) (d : Dir) (nodes : Option (List ℕ))
    (w : Bool) (n : ℕ) (v : ℚ) (h : (n, v) ∈ averageNbrDeg G d nodes w) :
    v = if degQ G d w n > 0 then nbrContrib G d w n / degQ G d w n
        else nbrContrib G d w n := by
  simp only [averageNbrDeg, List.mem_map, Prod.mk.injEq] at h
  obtain ⟨m, _, rfl, rfl⟩ := h
  rfl

lemma adj_eq_nil_of_no_incident (G : Graph) (n : ℕ)
    (h : ∀ e ∈ G.edges, e.1 ≠ n ∧ e.2.1 ≠ n) : G.adj n = [] := by
  have h1 : G.edges.filter (fun e => e.1 = n) = [] := by
    rw [List.filter_eq_nil_iff]
    intro e he
    simp [(h e he).1]
  have h2 : G.edges.filter (fun e => e.2.1 = n ∧ e.1 ≠ n) = [] := by
    rw [List.filter_eq_nil_iff]
    intro e he
    simp [(h e he).2]
  unfold Graph.adj successorsW
  rw [h1, h2]
  cases G.directed <;> simp

lemma no_incident_of_plain_deg_zero (G : Graph) (n : ℕ)
    (h : degNat G .plain n = 0) : ∀ e ∈ G.edges, e.1 ≠ n ∧ e.2.1 ≠ n := by
  intro e he
  simp only [degNat] at h
  have h0 := List.sum_eq_zero_iff.1 h _ (List.mem_map_of_mem _ he)
  by_cases h1 : e.1 = n <;> by_cases h2 : e.2.1 = n <;>
    simp [h1, h2] at h0 ⊢

lemma nbrContrib_eq_zero (G : Graph) (d : Dir) (w : Bool) (n : ℕ)
    (h : G.adj n = []) : nbrContrib G d w n = 0 := by
  simp [nbrContrib, h]

lemma averageNbrDeg_zero_of_adj_nil (G : Graph) (d : Dir)
    (nodes : Option (List ℕ)) (w : Bool) (n : ℕ) (v : ℚ)
    (hadj : G.adj n = []) (hm : (n, v) ∈ averageNbrDeg G d nodes w) : v = 0 := by
  have hv := mem_averageNbrDeg G d nodes w n v hm
  rw [nbrContrib_eq_zero G d w n hadj] at hv
  rw [hv]
  split <;> simp

lemma normLoop_ok_keys (ds dn : DDict) (ks : List ℕ) :
    ∀ (l : List (ℕ × ℚ)), normLoop ds dn ks = .ok l →
      l.map Prod.fst = ks := by
  induction ks with
  | nil =>
    intro l h
    simp only [normLoop, Except.ok.injEq] at h
    subst h; rfl
  | cons k ks ih =>
    intro l h
    simp only [normLoop] at h
    by_cases hpos : ds.val k > 0
    · rw [if_pos hpos] at h
      by_cases hz : dn.val k = 0
      · rw [if_pos hz] at h; simp at h
      · rw [if_neg hz] at h
        cases hrec : normLoop ds dn ks with
        | error e => rw [hrec] at h; simp [Except.map] at h
        | ok rest =>
          rw [hrec] at h
          simp only [Except.map, Except.ok.injEq] at h
          subst h
          simp [ih rest hrec]
    · rw [if_neg hpos] at h
      cases hrec : normLoop ds dn ks with
      | error e => rw [hrec] at h; simp [Except.map] at h
      | ok rest =>
        rw [hrec] at h
        simp only [Except.map, Except.ok.injEq] at h
        subst h
        simp [ih rest hrec]

lemma normLoop_ok_val (ds dn : DDict) (ks : List ℕ) :
    ∀ (l : List (ℕ × ℚ)) (k : ℕ) (v : ℚ), normLoop ds dn ks = .ok l →
      (k, v) ∈ l →
      (ds.val k > 0 → dn.val k ≠ 0) ∧
      v = if ds.val k > 0 then ds.val k / dn.val k else ds.val k := by
  induction ks with
  | nil =>
    intro l k v h hm
    simp only [normLoop, Except.ok.injEq] at h
    subst h; simp at hm
  | cons a ks ih =>
    intro l k v h hm
    simp only [normLoop] at h
    by_cases hpos : ds.val a > 0
    · rw [if_pos hpos] at h
      by_cases hz : dn.val a = 0
      · rw [if_pos hz] at h; simp at h
      · rw [if_neg hz] at h
        cases hrec : normLoop ds dn ks with
        | error e => rw [hrec] at h; simp [Except.map] at h
        | ok rest =>
          rw [hrec] at h
          simp only [Except.map, Except.ok.injEq] at h
          subst h
          rcases List.mem_cons.1 hm with heq | hmem
          · rw [Prod.mk.injEq] at heq
            obtain ⟨rfl, rfl⟩ := heq
            exact ⟨fun _ => hz, by rw [if_pos hpos]⟩
          · exact ih rest k v hrec hmem
    · rw [if_neg hpos] at h
      cases hrec : normLoop ds dn ks with
      | error e => rw [hrec] at h; simp [Except.map] at h
      | ok rest =>
        rw [hrec] at h
        simp only [Except.map, Except.ok.injEq] at h
        subst h
        rcases List.mem_cons.1 hm with heq | hmem
        · rw [Prod.mk.injEq] at heq
          obtain ⟨rfl, rfl⟩ := heq
          exact ⟨fun hp => absurd hp hpos, by rw [if_neg hpos]⟩
        · exact ih rest k v hrec hmem

lemma avgDegConn_ok_keys (G : Graph) (d : Dir) (nodes : Option (List ℕ))
    (w : Bool) (dc : List (ℕ × ℚ)) (h : avgDegConn G d nodes w = .ok dc)
    (k : ℕ) :
    k ∈ dc.map Prod.fst ↔
      k ∈ (connLoop G d w (dedupFirst (nbunchIter G nodes))
        (DDict.empty, DDict.empty)).1.keys := by
  simp only [avgDegConn] at h
  rw [normLoop_ok_keys _ _ _ dc h]

lemma upath_nbr_values :
    average_neighbor_degree upath none false =
      [(0, 2), (1, 3/2), (2, 3/2), (3, 2)] := by
  norm_num [average_neighbor_degree, averageNbrDeg, nbrContrib, degQ, degNat,
    degW, Graph.adj, successorsW, upath, nbunchIter, dedupFirst, dedupFirstAux, wt]

lemma wpath_nbr_values :
    average_neighbor_degree wpath none true =
      [(0, 2), (1, 7/6), (2, 5/4), (3, 2)] := by
  norm_num [average_neighbor_degree, averageNbrDeg, nbrContrib, degQ, degNat,
    degW, Graph.adj, successorsW, wpath, nbunchIter, dedupFirst, dedupFirstAux, wt]

lemma dpath_in_values :
    average_neighbor_in_degree dpath none false =
      Except.ok [(0, 1), (1, 1), (2, 1), (3, 0)] := by
  norm_num [average_neighbor_in_degree, averageNbrDeg, nbrContrib, degQ, degNat,
    degW, Graph.adj, successorsW, dpath, nbunchIter, dedupFirst, dedupFirstAux, wt]

lemma dpath_out_values :
    average_neighbor_out_degree dpath none false =
      Except.ok [(0, 1), (1, 1), (2, 0), (3, 0)] := by
  norm_num [average_neighbor_out_degree, averageNbrDeg, nbrContrib, degQ, degNat,
    degW, Graph.adj, successorsW, dpath, nbunchIter, dedupFirst, dedupFirstAux, wt]

lemma isoG_nbr_values :
    average_neighbor_degree isoG none false = [(0, 0)] := by
  norm_num [average_neighbor_degree, averageNbrDeg, nbrContrib, degQ, degNat,
    degW, Graph.adj, successorsW, isoG, nbunchIter, dedupFirst, dedupFirstAux, wt]

lemma upath_conn_values :
    avgDegConn upath Dir.plain none false = .ok [(1, 2), (2, 3/2)] := by
  norm_num [avgDegConn, normLoop, connLoop, DDict.add, DDict.empty, nbrContrib,
    degQ, degNat, degW, Graph.adj, successorsW, upath, nbunchIter, dedupFirst,
    dedupFirstAux, wt, Except.map]

lemma dpath_in_conn_error :
    average_in_degree_connectivity dpath none false = .error zeroDivErr := by
  norm_num [average_in_degree_connectivity, avgDegConn, normLoop, connLoop,
    DDict.add, DDict.empty, nbrContrib, degQ, degNat, degW, Graph.adj,
    successorsW, dpath, nbunchIter, dedupFirst, dedupFirstAux, wt, Except.map]

lemma negG_sum_val :
    (connLoop negG Dir.plain true (dedupFirst (nbunchIter negG none))
      (DDict.empty, DDict.empty)).1.val 1 = -2 := by
  norm_num [connLoop, DDict.add, DDict.empty, nbrContrib, degQ, degNat, degW,
    Graph.adj, successorsW, negG, nbunchIter, dedupFirst, dedupFirstAux, wt]

lemma negG_norm_val :
    (connLoop negG Dir.plain true (dedupFirst (nbunchIter negG none))
      (DDict.empty, DDict.empty)).2.val 1 = -2 := by
  norm_num [connLoop, DDict.add, DDict.empty, nbrContrib, degQ, degNat, degW,
    Graph.adj, successorsW, negG, nbunchIter, dedupFirst, dedupFirstAux, wt]

lemma negG_conn_values :
    average_degree_connectivity negG none true = .ok [(1, -2)] := by
  norm_num [average_degree_connectivity, avgDegConn, normLoop, connLoop,
    DDict.add, DDict.empty, nbrContrib, degQ, degNat, degW, Graph.adj,
    successorsW, negG, nbunchIter, dedupFirst, dedupFirstAux, wt, Except.map]

/-- Claim C1, counterexample: on the directed path 0→1→2→3, node 0 has
in-degree 0 under the active accessor of `average_neighbor_in_degree`, yet
the returned mapping assigns it 1.0, not 0.0 — the function enumerates the
successors of node 0 and sums their in-degrees (this is the very example of
the module docstring). -/
theorem c1_counterexample :
    degNat dpath Dir.inD 0 = 0 ∧
    average_neighbor_in_degree dpath none false =
      Except.ok [(0, 1), (1, 1), (2, 1), (3, 0)] ∧
    (1 : ℚ) ≠ 0 :=
  ⟨by decide, dpath_in_values, by norm_num⟩

/-- Claim C1 (amended): the zero-degree condition must be the node's plain
unweighted degree (no incident edges at all), not the degree under the
active accessor: every selected node with zero plain degree is mapped to
0.0 by `average_neighbor_degree` and by both directed variants, for any
weighted flag. -/
theorem c1_zero_degree_zero_value (G : Graph) (nodes : Option (List ℕ))
    (w : Bool) (n : ℕ) (v : ℚ) (h : degNat G .plain n = 0) :
    ((n, v) ∈ average_neighbor_degree G nodes w → v = 0) ∧
    (∀ l, average_neighbor_in_degree G nodes w = .ok l → (n, v) ∈ l → v = 0) ∧
    (∀ l, average_neighbor_out_degree G nodes w = .ok l → (n, v) ∈ l → v = 0) := by
  have hadj : G.adj n = [] :=
    adj_eq_nil_of_no_incident G n (no_incident_of_plain_deg_zero G n h)
  refine ⟨fun hm => averageNbrDeg_zero_of_adj_nil G .plain nodes w n v hadj hm,
    fun l hl hm => ?_, fun l hl hm => ?_⟩
  · by_cases hd : G.directed = true
    · simp only [average_neighbor_in_degree, if_pos hd, Except.ok.injEq] at hl
      subst hl
      exact averageNbrDeg_zero_of_adj_nil G .inD nodes w n v hadj hm
    · simp only [average_neighbor_in_degree, if_neg hd] at hl
      cases hl
  · by_cases hd : G.directed = true
    · simp only [average_neighbor_out_degree, if_pos hd, Except.ok.injEq] at hl
      subst hl
      exact averageNbrDeg_zero_of_adj_nil G .outD nodes w n v hadj hm
    · simp only [average_neighbor_out_degree, if_neg hd] at hl
      cases hl

/-- Witness for the amended claim C1: the isolated node 0 of `isoG` has
plain degree 0 and receives value 0.0. -/
theorem c1_zero_degree_zero_value_witness :
    degNat isoG Dir.plain 0 = 0 ∧
    (0, (0 : ℚ)) ∈ average_neighbor_degree isoG none false ∧ (0 : ℚ) = 0 :=
  ⟨by decide, by rw [isoG_nbr_values]; simp,
    (c1_zero_degree_zero_value isoG none false 0 0 (by decide)).1
      (by rw [isoG_nbr_values]; simp)⟩

/-- Claim C2, counterexample: on the unweighted path 0-1-2-3, node 0's
single neighbor is node 1, whose degree is 2 (not 1), so the result maps
node 0 to 2.0, not 1.0; the returned mapping is not the claimed one. -/
theorem c2_counterexample :
    (average_neighbor_degree upath none false).lookup 0 = some 2 ∧
    average_neighbor_degree upath none false ≠
      [(0, 1), (1, 3/2), (2, 3/2), (3, 1)] ∧
    (2 : ℚ) ≠ 1 := by
  refine ⟨?_, ?_, by norm_num⟩
  · rw [upath_nbr_values]; rfl
  · rw [upath_nbr_values]; norm_num

/-- Claim C2 (amended): on the unweighted path 0-1-2-3, unrestricted
unweighted `average_neighbor_degree` returns exactly the mapping
0 ↦ 2.0, 1 ↦ 1.5, 2 ↦ 1.5, 3 ↦ 2.0 (the values of the module docstring). -/
theorem c2_path_values :
    average_neighbor_degree upath none false =
      [(0, 2), (1, 3/2), (2, 3/2), (3, 2)] :=
  upath_nbr_values

/-- Claim C3: on an undirected graph every in/out variant returns the
`UnsupportedOperation` error (`NetworkXError`), and the error case produces
no mapping at all — no accumulation is reflected in the result. -/
theorem c3_undirected_guard (G : Graph) (nodes : Option (List ℕ)) (w : Bool)
    (h : G.directed = false) :
    average_neighbor_in_degree G nodes w = .error undirectedErr ∧
    average_neighbor_out_degree G nodes w = .error undirectedErr ∧
    average_in_degree_connectivity G nodes w = .error undirectedErr ∧
    average_out_degree_connectivity G nodes w = .error undirectedErr := by
  simp [average_neighbor_in_degree, average_neighbor_out_degree,
    average_in_degree_connectivity, average_out_degree_connectivity, h]

/-- Witness for claim C3 at the undirected path graph. -/
theorem c3_undirected_guard_witness :
    upath.directed = false ∧
    average_neighbor_in_degree upath none false = .error undirectedErr :=
  ⟨rfl, (c3_undirected_guard upath none false rfl).1⟩

/-- Claim C4: whenever `average_degree_connectivity` returns a mapping
(the final normalization raises `ZeroDivisionError` instead of returning
when some degree class has positive neighbor-degree mass and zero
normalizing mass, reachable with weighted=True and cancelling negative
weights), the key set of that mapping is exactly the set of degree values
realized by the selected nodes; on the unweighted path 0-1-2-3 the call
returns exactly 1 ↦ 2.0, 2 ↦ 1.5. -/
theorem c4_keys_are_realized_degrees :
    (∀ (G : Graph) (nodes : Option (List ℕ)) (w : Bool) (dc : List (ℕ × ℚ))
        (k : ℕ), average_degree_connectivity G nodes w = .ok dc →
      (k ∈ dc.map Prod.fst ↔ ∃ n ∈ nbunchIter G nodes, degNat G .plain n = k)) ∧
    average_degree_connectivity upath none false = .ok [(1, 2), (2, 3/2)] := by
  refine ⟨fun G nodes w dc k h => ?_, upath_conn_values⟩
  rw [avgDegConn_ok_keys G .plain nodes w dc h, connLoop_keys_mem]
  simp [DDict.empty, mem_dedupFirst]

/-- Claim C5: on the path 0-1-2-3 with weight 5 on edge (0,1) and weight 3
on edge (2,3), weighted `average_neighbor_degree` returns exactly
0 ↦ 2.0, 1 ↦ 7/6, 2 ↦ 5/4, 3 ↦ 2.0 (7/6 is the exact rational the
documented float 1.1666666666666667 rounds, 5/4 is 1.25). -/
theorem c5_weighted_path_values :
    average_neighbor_degree wpath none true =
      [(0, 2), (1, 7/6), (2, 5/4), (3, 2)] :=
  wpath_nbr_values

/-- Claim C6, counterexample: the code divides `dsum[k]` by `dnorm[k]` only
when `dsum[k] > 0`, not whenever `dsum[k] ≠ 0`: on the single-edge graph
with weight -1, weighted connectivity accumulates `dsum[1] = dnorm[1] = -2`
and returns -2.0 at key 1, while the claimed rule would return
-2 / -2 = 1.0. -/
theorem c6_counterexample :
    (connLoop negG Dir.plain true (dedupFirst (nbunchIter negG none))
        (DDict.empty, DDict.empty)).1.val 1 = -2 ∧
    (connLoop negG Dir.plain true (dedupFirst (nbunchIter negG none))
        (DDict.empty, DDict.empty)).2.val 1 = -2 ∧
    average_degree_connectivity negG none true = .ok [(1, -2)] ∧
    (-2 : ℚ) ≠ (-2) / (-2) :=
  ⟨negG_sum_val, negG_norm_val, negG_conn_values, by norm_num⟩

/-- Claim C6 (amended): for every key k of a returned mapping, the value is
`dsum[k] / dnorm[k]` when `dsum[k] > 0` (strictly positive, not merely
nonzero) — and then `dnorm[k] ≠ 0` necessarily, since `dsum[k] > 0` with
`dnorm[k] = 0` raises `ZeroDivisionError` and no mapping is returned, as
`average_in_degree_connectivity` on the directed path 0→1→2→3 shows —
and the raw accumulated `dsum[k]` otherwise. -/
theorem c6_division_guard :
    (∀ (G : Graph) (d : Dir) (nodes : Option (List ℕ)) (w : Bool)
        (dc : List (ℕ × ℚ)) (k : ℕ) (v : ℚ),
      avgDegConn G d nodes w = .ok dc → (k, v) ∈ dc →
      ((connLoop G d w (dedupFirst (nbunchIter G nodes))
          (DDict.empty, DDict.empty)).1.val k > 0 →
        (connLoop G d w (dedupFirst (nbunchIter G nodes))
          (DDict.empty, DDict.empty)).2.val k ≠ 0) ∧
      v = if (connLoop G d w (dedupFirst (nbunchIter G nodes))
              (DDict.empty, DDict.empty)).1.val k > 0
          then (connLoop G d w (dedupFirst (nbunchIter G nodes))
              (DDict.empty, DDict.empty)).1.val k /
            (connLoop G d w (dedupFirst (nbunchIter G nodes))
              (DDict.empty, DDict.empty)).2.val k
          else (connLoop G d w (dedupFirst (nbunchIter G nodes))
              (DDict.empty, DDict.empty)).1.val k) ∧
    average_in_degree_connectivity dpath none false = .error zeroDivErr := by
  refine ⟨fun G d nodes w dc k v h hm => ?_, dpath_in_conn_error⟩
  simp only [avgDegConn] at h
  exact normLoop_ok_val _ _ _ dc k v h hm

/-- Claim C7: every value of `_average_nbr_deg` (shared by
`average_neighbor_degree` and its in/out variants) is the neighbor-degree
sum divided by the node's own degree under the active accessor and the same
weighted flag when that degree is strictly positive, and the raw undivided
sum otherwise; an isolated node (no incident edges) always yields 0.0,
never a division error. -/
theorem c7_normalization_formula :
    (∀ (G : Graph) (d : Dir) (nodes : Option (List ℕ)) (w : Bool) (n : ℕ)
        (v : ℚ), (n, v) ∈ averageNbrDeg G d nodes w →
      v = if degQ G d w n > 0 then nbrContrib G d w n / degQ G d w n
          else nbrContrib G d w n) ∧
    (∀ (G : Graph) (d : Dir) (nodes : Option (List ℕ)) (w : Bool) (n : ℕ)
        (v : ℚ), IsIsolated G n → (n, v) ∈ averageNbrDeg G d nodes w →
      v = 0) := by
  refine ⟨fun G d nodes w n v h => mem_averageNbrDeg G d nodes w n v h,
    fun G d nodes w n v hiso hm => ?_⟩
  exact averageNbrDeg_zero_of_adj_nil G d nodes w n v
    (adj_eq_nil_of_no_incident G n fun e he => hiso e he) hm

/-- Claim C8: the total normalizing mass accumulated in `dnorm` across all
degree classes equals the sum over the selected nodes of their own degree
under the active accessor and the active weighted flag. -/
theorem c8_norm_mass_conservation (G : Graph) (d : Dir)
    (nodes : Option (List ℕ)) (w : Bool) :
    (connLoop G d w (dedupFirst (nbunchIter G nodes))
        (DDict.empty, DDict.empty)).2.total =
      ((dedupFirst (nbunchIter G nodes)).map (degQ G d w)).sum := by
  rw [connLoop_norm_total G d w _ DDict.empty DDict.empty
    ⟨List.nodup_nil, fun _ _ => rfl⟩]
  simp [DDict.total, DDict.empty]

/-- Claim C9: every entry point is deterministic and carries no state across
calls — in the embedding each call is a fresh evaluation (the accumulators
of `_avg_deg_conn` start from empty defaultdicts inside each call), so two
successive calls with the same graph, selection and weighted flag return
identical mappings. -/
theorem c9_deterministic_entry_points (G : Graph) (nodes : Option (List ℕ))
    (w : Bool) :
    (runTwice fun _ => average_neighbor_degree G nodes w).1 =
      (runTwice fun _ => average_neighbor_degree G nodes w).2 ∧
    (runTwice fun _ => average_neighbor_in_degree G nodes w).1 =
      (runTwice fun _ => average_neighbor_in_degree G nodes w).2 ∧
    (runTwice fun _ => average_neighbor_out_degree G nodes w).1 =
      (runTwice fun _ => average_neighbor_out_degree G nodes w).2 ∧
    (runTwice fun _ => average_degree_connectivity G nodes w).1 =
      (runTwice fun _ => average_degree_connectivity G nodes w).2 ∧
    (runTwice fun _ => average_in_degree_connectivity G nodes w).1 =
      (runTwice fun _ => average_in_degree_connectivity G nodes w).2 ∧
    (runTwice fun _ => average_out_degree_connectivity G nodes w).1 =
      (runTwice fun _ => average_out_degree_connectivity G nodes w).2 :=
  ⟨rfl, rfl, rfl, rfl, rfl, rfl⟩

/-- Claim C10: on a directed graph every variant enumerates a node's
neighbors as its successor set `G[n]`, the variant entering only through
the degree accessor, never through the adjacency traversed; the directed
docstring examples confirm it observably (node 0 has in-degree 0 yet its
in-degree average is 1.0, taken over its successor; node 3 has no
successors and gets 0.0 in both variants). -/
theorem c10_successor_traversal :
    (∀ (G : Graph), G.directed = true → ∀ (d : Dir) (w : Bool) (n : ℕ),
      G.adj n = successorsW G n ∧
      nbrContrib G d w n = nbrSumOver (successorsW G n) (degNat G d) w) ∧
    average_neighbor_in_degree dpath none false =
      Except.ok [(0, 1), (1, 1), (2, 1), (3, 0)] ∧
    average_neighbor_out_degree dpath none false =
      Except.ok [(0, 1), (1, 1), (2, 0), (3, 0)] := by
  refine ⟨fun G hd d w n => ?_, dpath_in_values, dpath_out_values⟩
  have hadj : G.adj n = successorsW G n := by simp [Graph.adj, hd]
  exact ⟨hadj, by rw [nbrContrib, nbrSumOver, hadj]⟩

end NeighborDegree
